import Mathlib

/-!
Row-banded image rotation: `code/mpi/rotate_mpi.c`.

A shallow embedding of `rotatePGM` (lines 109-149) and of the fixed-size gather that ends
it, with the properties of the row partition, of the inverse-mapping kernel and of the
gathered result.

Modelling conventions.
* A C `int` expression is computed in `Int` and then required to lie in the range of a
  32-bit `int` (`inInt`); signed overflow is undefined in C, and a run that overflows is
  `none`.  `/` on `int` is `Int.tdiv` (truncation toward zero).
* `unsigned char` samples are `Nat`; the kernel only copies them.
* A finite `double` is the rational it denotes.  Every floating-point operation of the
  source (`fmul`, `fadd`, `fsub`) computes the exact result and rounds it to binary64,
  round to nearest, ties to even (`roundDouble`); products are rounded before they are
  added or subtracted, as ISO C evaluates them without contraction to a fused
  multiply-add.  Infinities and NaN cannot arise from the operands of lines 116-117
  and 135-136 and are not represented.  Lines 110-112 (`angle * PI / 180`, `cos`, `sin`) call
  the C library and are outside the model: `cosine` and `sine` are parameters.
* The cast `(int)` of a double is truncation toward zero (`toInt`).  Casts of the two
  destination dimensions are checked against the range of `int`; the casts of lines
  135-136 are applied to terms bounded by the destination dimensions and are taken in
  range.
* `malloc` followed by `memset 0` is `List.replicate _ 0`, for a size in the range of
  `int`.  Reads and writes through a pointer are checked (`readByte`, `writeByte`) and give
  `none` outside the allocation; a zero divisor gives `none` as well.
* Counted `for` loops are folds over `List.range`.
* `MPI_Gather` with a uniform count delivers the send buffers one after another in rank
  order.  File input and output, `MPI_Bcast` and timing are outside the model.
-/

namespace RotateMPI

/-- Largest value of a 32-bit `int`. -/
def INT_MAX : Int := 2147483647

/-- Smallest value of a 32-bit `int`. -/
def INT_MIN : Int := -2147483648

/-- The value of an `int` expression is representable; otherwise the behaviour is
undefined. -/
def inInt (v : Int) : Prop := INT_MIN ≤ v ∧ v ≤ INT_MAX

instance (v : Int) : Decidable (inInt v) := by
  unfold inInt; infer_instance

/-- The struct `PGMImage`: width, height, maximum gray value, row-major samples. -/
structure PGMImage where
  width : Int
  height : Int
  maxval : Int
  data : List Nat
deriving DecidableEq

/-- The data-model invariant of an image that `readPGM` has loaded: positive dimensions,
`width * height` samples, and a sample count that `readPGM` can compute as an `int`. -/
def PGMImage.valid (img : PGMImage) : Prop :=
  0 < img.width ∧ 0 < img.height ∧ img.data.length = (img.width * img.height).toNat ∧
    img.width * img.height ≤ INT_MAX

/-- The power `2 ^ e` as a rational, for an integer exponent. -/
def twoPow (e : Int) : ℚ :=
  if 0 ≤ e then ((2 ^ e.toNat : Nat) : ℚ) else 1 / ((2 ^ (-e).toNat : Nat) : ℚ)

/-- The number of binary digits of `n`, computed with at most `fuel` halvings. -/
def bitLength : Nat → Nat → Nat
  | 0, _ => 0
  | fuel + 1, n => if n = 0 then 0 else bitLength fuel (n / 2) + 1

/-- The binary exponent `⌊log₂ q⌋` of a positive rational. -/
def ilog2 (q : ℚ) : Int :=
  let k : Int := (bitLength q.num.natAbs q.num.natAbs : Int) - (bitLength q.den q.den : Int)
  if twoPow k ≤ q then k else k - 1

/-- The integer nearest to a rational, a tie going to the even neighbour. -/
def roundHalfEven (q : ℚ) : Int :=
  if q - (⌊q⌋ : ℚ) < 1 / 2 then ⌊q⌋
  else if 1 / 2 < q - (⌊q⌋ : ℚ) then ⌊q⌋ + 1
  else if ⌊q⌋ % 2 = 0 then ⌊q⌋ else ⌊q⌋ + 1

/-- IEEE-754 binary64 rounding of an exact result: 53 significant bits, round to nearest,
ties to even, with the subnormal exponent floor `-1074`. -/
def roundDouble (q : ℚ) : ℚ :=
  if q = 0 then 0
  else
    (if q < 0 then -1 else 1)
      * ((roundHalfEven (|q| / twoPow (max (ilog2 |q| - 52) (-1074))) : Int) : ℚ)
      * twoPow (max (ilog2 |q| - 52) (-1074))

/-- The `double` product `x * y`. -/
def fmul (x y : ℚ) : ℚ := roundDouble (x * y)

/-- The `double` sum `x + y`. -/
def fadd (x y : ℚ) : ℚ := roundDouble (x + y)

/-- The `double` difference `x - y`. -/
def fsub (x y : ℚ) : ℚ := roundDouble (x - y)

/-- The C cast `(int)x` of a `double`: the fractional part is discarded. -/
def toInt (x : ℚ) : Int := Int.tdiv x.num (x.den : Int)

/-- Line 116: `dst->width = (int)(fabs(src->width * cosine) + fabs(src->height * sine))`. -/
def dstWidth (src : PGMImage) (cosine sine : ℚ) : Int :=
  toInt (fadd |fmul (src.width : ℚ) cosine| |fmul (src.height : ℚ) sine|)

/-- Line 117: `dst->height = (int)(fabs(src->height * cosine) + fabs(src->width * sine))`. -/
def dstHeight (src : PGMImage) (cosine sine : ℚ) : Int :=
  toInt (fadd |fmul (src.height : ℚ) cosine| |fmul (src.width : ℚ) sine|)

/-- Line 125: `rows_per_process = (dst->height + size - 1) / size`. -/
def rows_per_process (height size : Int) : Int := Int.tdiv (height + size - 1) size

/-- Line 126: `start_row = rank * rows_per_process`. -/
def start_row (height size rank : Int) : Int := rank * rows_per_process height size

/-- Lines 127-128: `end_row = (rank + 1) * rows_per_process`, clamped to `dst->height`. -/
def end_row (height size rank : Int) : Int :=
  let e := (rank + 1) * rows_per_process height size
  if e > height then height else e

/-- Line 114: `ori_centre_x = src->width / 2`. -/
def ori_centre_x (src : PGMImage) : Int := Int.tdiv src.width 2

/-- Line 115: `ori_centre_y = src->height / 2`. -/
def ori_centre_y (src : PGMImage) : Int := Int.tdiv src.height 2

/-- Line 135: the source column used for destination row `i`, column `j`:
`(int)((i - dst->height / 2) * cosine - (j - dst->width / 2) * sine) + ori_centre_x`. -/
def ori_x (src : PGMImage) (dw dh : Int) (cosine sine : ℚ) (i j : Int) : Int :=
  toInt (fsub (fmul ((i - Int.tdiv dh 2 : Int) : ℚ) cosine)
      (fmul ((j - Int.tdiv dw 2 : Int) : ℚ) sine))
    + ori_centre_x src

/-- Line 136: the source row used for destination row `i`, column `j`:
`(int)((i - dst->height / 2) * sine + (j - dst->width / 2) * cosine) + ori_centre_y`. -/
def ori_y (src : PGMImage) (dw dh : Int) (cosine sine : ℚ) (i j : Int) : Int :=
  toInt (fadd (fmul ((i - Int.tdiv dh 2 : Int) : ℚ) sine)
      (fmul ((j - Int.tdiv dw 2 : Int) : ℚ) cosine))
    + ori_centre_y src

/-- Line 138: the bounds test on the source coordinates. -/
def inSource (src : PGMImage) (x y : Int) : Prop :=
  0 ≤ x ∧ x < src.width ∧ 0 ≤ y ∧ y < src.height

instance (src : PGMImage) (x y : Int) : Decidable (inSource src x y) := by
  unfold inSource; infer_instance

/-- A checked read `p[idx]` from an allocation holding `data`. -/
def readByte (data : List Nat) (idx : Int) : Option Nat :=
  if 0 ≤ idx then data[idx.toNat]? else none

/-- A checked write `p[idx] = v` into an allocation holding `buf`. -/
def writeByte (buf : List Nat) (idx : Int) (v : Nat) : Option (List Nat) :=
  if 0 ≤ idx ∧ idx.toNat < buf.length then some (buf.set idx.toNat v) else none

/-- Lines 135-140: the body of the inner loop for destination row `i`, column `j`.  The two
index expressions of line 139 are `int` expressions. -/
def pixelStep (src : PGMImage) (dw dh : Int) (cosine sine : ℚ) (start i : Int)
    (buf : List Nat) (j : Int) : Option (List Nat) :=
  let x := ori_x src dw dh cosine sine i j
  let y := ori_y src dw dh cosine sine i j
  if inSource src x y then
    if inInt (y * src.width + x) ∧ inInt ((i - start) * dw + j) then
      (readByte src.data (y * src.width + x)).bind fun v =>
        writeByte buf ((i - start) * dw + j) v
    else none
  else some buf

/-- Lines 134-141: the inner loop `for (j = 0; j < dst->width; ++j)` on row `i`. -/
def rowLoop (src : PGMImage) (dw dh : Int) (cosine sine : ℚ) (start : Int)
    (buf : List Nat) (i : Int) : Option (List Nat) :=
  (List.range dw.toNat).foldlM
    (fun b (j : Nat) => pixelStep src dw dh cosine sine start i b (j : Int)) buf

/-- Lines 133-142: the outer loop `for (i = start_row; i < end_row; ++i)`. -/
def kernel (src : PGMImage) (dw dh : Int) (cosine sine : ℚ) (start stop : Int)
    (buf : List Nat) : Option (List Nat) :=
  (List.range (stop - start).toNat).foldlM
    (fun b (k : Nat) => rowLoop src dw dh cosine sine start b (start + (k : Int))) buf

/-- What one rank holds when it reaches `MPI_Gather`: the destination header and its
send buffer. -/
structure Rotated where
  width : Int
  height : Int
  maxval : Int
  local_buffer : List Nat
deriving DecidableEq

/-- Lines 113-142 of `rotatePGM` on one rank, for given `cosine` and `sine`.
`none` stands for undefined behaviour: an `int` expression out of range, a division by
zero, or an access outside an allocation. -/
def rotatePGM (src : PGMImage) (cosine sine : ℚ) (rank size : Int) : Option Rotated :=
  let dw := dstWidth src cosine sine
  let dh := dstHeight src cosine sine
  if ¬ (inInt dw ∧ inInt dh) then none
  else if rank = 0 ∧ ¬ inInt (dw * dh) then none
  else if size = 0 then none
  else if ¬ inInt (dh + size - 1) then none
  else if ¬ (inInt (rank * rows_per_process dh size)
      ∧ inInt ((rank + 1) * rows_per_process dh size)) then none
  else if ¬ inInt (dw * rows_per_process dh size) then none
  else
    let local_buffer := List.replicate (dw * rows_per_process dh size).toNat 0
    (kernel src dw dh cosine sine (start_row dh size rank) (end_row dh size rank)
        local_buffer).map
      fun buf => { width := dw, height := dh, maxval := src.maxval, local_buffer := buf }

/-- Lines 144-146: the bytes `MPI_Gather` delivers to rank 0, the `size` send buffers in
rank order. -/
def gathered (src : PGMImage) (cosine sine : ℚ) (size : Nat) : Option (List Nat) :=
  ((List.range size).mapM fun (r : Nat) => rotatePGM src cosine sine (r : Int) (size : Int)).map
    fun rs => (rs.map Rotated.local_buffer).flatten

/-- Lines 130 and 144: the per-rank count `dst->width * rows_per_process`, an `int`. -/
def gatherCount (dw dh size : Int) : Option Int :=
  if inInt (dw * rows_per_process dh size) then some (dw * rows_per_process dh size) else none

/-- Lines 144-145: the number of bytes the gather delivers, `size` chunks of the per-rank
count. -/
def gatherLength (dw dh size : Int) : Option Int :=
  (gatherCount dw dh size).map fun count => size * count

/-- Line 121: the number of bytes allocated for `dst->data` on rank 0,
`dst->width * dst->height`, an `int`. -/
def dstAlloc (dw dh : Int) : Option Int :=
  if inInt (dw * dh) then some (dw * dh) else none

/-- The `int` expressions of lines 116-131 that depend only on the destination size are in
range: the destination width, `dst->height + size - 1` and `dst->width * dst->height`. -/
def SizesFit (dw dh size : Int) : Prop :=
  dw ≤ INT_MAX ∧ dh + size - 1 ≤ INT_MAX ∧ dw * dh ≤ INT_MAX

/-- The sample the kernel leaves for destination row `i`, column `j`: the source sample at
the computed coordinates when they pass the bounds test, the `memset` value otherwise. -/
def sample (src : PGMImage) (dw dh : Int) (cosine sine : ℚ) (i j : Int) : Nat :=
  if inSource src (ori_x src dw dh cosine sine i j) (ori_y src dw dh cosine sine i j) then
    src.data.getD
      (ori_y src dw dh cosine sine i j * src.width + ori_x src dw dh cosine sine i j).toNat 0
  else 0

/-- A 2x2 test image with four distinct samples. -/
def img2 : PGMImage := { width := 2, height := 2, maxval := 255, data := [1, 2, 3, 4] }

/-- A 3x3 test image with nine distinct samples. -/
def img3 : PGMImage :=
  { width := 3, height := 3, maxval := 255, data := [1, 2, 3, 4, 5, 6, 7, 8, 9] }

/-- A 65536x1 image; rotated by 45 degrees its destination is 46341x46341. -/
def wideImage : PGMImage :=
  { width := 65536, height := 1, maxval := 255, data := List.replicate 65536 0 }

/-- The binary64 value of `cos(radian)` for `angle = 53.13010326045783`,
`radian = angle * 3.1415926 / 180.0`: the double nearest to 0.6. -/
def cos53 : ℚ := 5404319552844595 / 9007199254740992

/-- The binary64 value of `sin(radian)` for `angle = 53.13010326045783`: the double nearest
to 0.8. -/
def sin53 : ℚ := 3602879701896397 / 4503599627370496

/-- The binary64 value of `cos(radian)` for `angle = 45`, `radian = 45 * 3.1415926 / 180.0`
(about 0.707106790659974). -/
def cos45 : ℚ := 1592262939463703 / 2251799813685248

/-- The binary64 value of `sin(radian)` for `angle = 45` (about 0.707106771713121). -/
def sin45 : ℚ := 1592262896799183 / 2251799813685248

/-- The binary64 value of `cos(radian)` for `angle = 180`, `radian = 180 * 3.1415926 / 180.0`
(about -0.9999999999999986: `PI` is not pi). -/
def cos180 : ℚ := -9007199254740979 / 9007199254740992

/-- The binary64 value of `sin(radian)` for `angle = 180` (about 5.3589793170057245e-08). -/
def sin180 : ℚ := 8098260578886239 / 151115727451828646838272

/-- A 10x10 image of zeros. -/
def img10 : PGMImage :=
  { width := 10, height := 10, maxval := 255, data := List.replicate 100 0 }

/-- A 20000000x1 image of zeros. -/
def longImage : PGMImage :=
  { width := 20000000, height := 1, maxval := 255, data := List.replicate 20000000 0 }

/-! ## Test inputs -/

theorem img2_valid : img2.valid := ⟨by decide, by decide, rfl, by decide⟩

theorem img3_valid : img3.valid := ⟨by decide, by decide, rfl, by decide⟩

theorem wideImage_valid : wideImage.valid := by
  refine ⟨by decide, by decide, ?_, by decide⟩
  show (List.replicate 65536 0).length = ((65536 : Int) * 1).toNat
  rw [List.length_replicate]
  rfl

/-! ## The range of `int` -/

theorem inInt_of_bounds {v : Int} (h0 : 0 ≤ v) (h1 : v ≤ INT_MAX) : inInt v := by
  unfold inInt INT_MIN
  exact ⟨by omega, h1⟩

/-! ## Doubles and the cast `(int)` -/

theorem twoPow_pos (e : Int) : 0 < twoPow e := by
  unfold twoPow
  split_ifs <;> positivity

theorem roundHalfEven_nonneg {q : ℚ} (hq : 0 ≤ q) : 0 ≤ roundHalfEven q := by
  have h := Int.floor_nonneg.mpr hq
  unfold roundHalfEven
  split_ifs <;> omega

theorem roundDouble_nonneg {q : ℚ} (hq : 0 ≤ q) : 0 ≤ roundDouble q := by
  unfold roundDouble
  split_ifs with h0 hneg
  · exact le_rfl
  · exact absurd hneg (not_lt.mpr hq)
  · have hm : (0 : ℚ) ≤ ((roundHalfEven (|q| / twoPow (max (ilog2 |q| - 52) (-1074))) : Int) : ℚ) := by
      exact_mod_cast roundHalfEven_nonneg (div_nonneg (abs_nonneg q) (twoPow_pos _).le)
    exact mul_nonneg (mul_nonneg zero_le_one hm) (twoPow_pos _).le

theorem toInt_of_nonneg {x : ℚ} (hx : 0 ≤ x) : toInt x = ⌊x⌋ := by
  unfold toInt
  rw [Int.tdiv_eq_ediv (Rat.num_nonneg.mpr hx) (by positivity), Rat.floor_def]

theorem toInt_nonneg {x : ℚ} (hx : 0 ≤ x) : 0 ≤ toInt x := by
  rw [toInt_of_nonneg hx]
  exact Int.floor_nonneg.mpr hx

theorem dstWidth_nonneg (src : PGMImage) (cosine sine : ℚ) : 0 ≤ dstWidth src cosine sine :=
  toInt_nonneg (roundDouble_nonneg (add_nonneg (abs_nonneg _) (abs_nonneg _)))

theorem dstHeight_nonneg (src : PGMImage) (cosine sine : ℚ) :
    0 ≤ dstHeight src cosine sine :=
  toInt_nonneg (roundDouble_nonneg (add_nonneg (abs_nonneg _) (abs_nonneg _)))

/-! ## Row partition arithmetic -/

theorem rows_per_process_eq_ediv {height size : Int} (hh : 0 ≤ height) (hs : 1 ≤ size) :
    rows_per_process height size = (height + size - 1) / size := by
  unfold rows_per_process
  exact Int.tdiv_eq_ediv (by omega) (by omega)

theorem rows_per_process_nonneg {height size : Int} (hh : 0 ≤ height) (hs : 1 ≤ size) :
    0 ≤ rows_per_process height size := by
  rw [rows_per_process_eq_ediv hh hs]
  exact Int.ediv_nonneg (by omega) (by omega)

/-- The capacity `size * rows_per_process` covers the height and overshoots by less than
`size`. -/
theorem rows_per_process_bounds {height size : Int} (hh : 0 ≤ height) (hs : 1 ≤ size) :
    height ≤ size * rows_per_process height size ∧
      size * rows_per_process height size < height + size := by
  rw [rows_per_process_eq_ediv hh hs]
  have h1 := Int.ediv_add_emod (height + size - 1) size
  have h2 := Int.emod_nonneg (height + size - 1) (b := size) (by omega)
  have h3 := Int.emod_lt_of_pos (height + size - 1) (b := size) (by omega)
  constructor <;> omega

theorem end_row_eq_min (height size rank : Int) :
    end_row height size rank =
      min (start_row height size rank + rows_per_process height size) height := by
  unfold end_row start_row
  simp only []
  have : (rank + 1) * rows_per_process height size
      = rank * rows_per_process height size + rows_per_process height size := by ring
  rw [this]
  split_ifs with h
  · rw [min_eq_right (by omega)]
  · rw [min_eq_left (by omega)]

theorem end_row_sub_start_row_le (height size rank : Int) :
    end_row height size rank - start_row height size rank ≤ rows_per_process height size := by
  rw [end_row_eq_min]
  have := min_le_left (start_row height size rank + rows_per_process height size) height
  omega

theorem rows_per_process_le_height {height size : Int} (hh : 0 ≤ height) (hs : 1 ≤ size) :
    rows_per_process height size ≤ height := by
  obtain ⟨-, h2⟩ := rows_per_process_bounds hh hs
  have h0 := rows_per_process_nonneg hh hs
  generalize rows_per_process height size = q at *
  by_contra hlt
  have : size * (height + 1) ≤ size * q := mul_le_mul_of_nonneg_left (by omega) (by omega)
  nlinarith

/-! ## Loops -/

/-- Invariant rule for a counted loop whose body may fail: when the invariant holds on entry
and every iteration below the bound succeeds and re-establishes it, the loop succeeds and
the invariant holds on exit. -/
theorem foldlM_range_invariant {β : Type} (step : β → Nat → Option β)
    (Inv : Nat → β → Prop) (N : Nat) (b0 : β) (h0 : Inv 0 b0)
    (hstep : ∀ n b, n < N → Inv n b → ∃ b', step b n = some b' ∧ Inv (n + 1) b') :
    ∃ b, (List.range N).foldlM step b0 = some b ∧ Inv N b := by
  induction N with
  | zero => exact ⟨b0, rfl, h0⟩
  | succ N ih =>
    obtain ⟨b, hb, hinv⟩ := ih (fun n b hn h => hstep n b (by omega) h)
    obtain ⟨b', hb', hinv'⟩ := hstep N b (by omega) hinv
    refine ⟨b', ?_, hinv'⟩
    rw [List.range_succ, List.foldlM_append, hb]
    simp [hb']

/-- A source index that passed the bounds test lies inside the source allocation. -/
theorem source_index_bounds (src : PGMImage) {x y : Int} (h : inSource src x y) :
    0 ≤ y * src.width + x ∧ y * src.width + x < src.width * src.height := by
  obtain ⟨hx0, hxw, hy0, hyh⟩ := h
  constructor
  · have := mul_nonneg hy0 (by omega : (0 : Int) ≤ src.width)
    omega
  · have : (y + 1) * src.width ≤ src.height * src.width :=
      mul_le_mul_of_nonneg_right (by omega) (by omega)
    nlinarith

theorem readByte_source (src : PGMImage)
    (hlen : src.data.length = (src.width * src.height).toNat) {x y : Int}
    (h : inSource src x y) :
    readByte src.data (y * src.width + x)
      = some (src.data.getD (y * src.width + x).toNat 0) := by
  obtain ⟨h0, h1⟩ := source_index_bounds src h
  have hlt : (y * src.width + x).toNat < src.data.length := by
    rw [hlen]; omega
  unfold readByte
  rw [if_pos h0, List.getD_eq_getElem?_getD, List.getElem?_eq_getElem hlt]
  rfl

/-- One iteration of the inner loop on local row `k`, column `j`. -/
theorem pixelStep_eq (src : PGMImage)
    (hlen : src.data.length = (src.width * src.height).toNat)
    (hmax : src.width * src.height ≤ INT_MAX) (n : Nat) (dh : Int)
    (cosine sine : ℚ) (start : Int) (k j : Nat) (b : List Nat)
    (hb : k * n + j < b.length) (hcap : (b.length : Int) ≤ INT_MAX) :
    pixelStep src n dh cosine sine start (start + k) b j
      = some (if inSource src (ori_x src n dh cosine sine (start + k) j)
                (ori_y src n dh cosine sine (start + k) j)
              then b.set (k * n + j) (sample src n dh cosine sine (start + k) j) else b) := by
  unfold pixelStep
  simp only []
  by_cases h : inSource src (ori_x src n dh cosine sine (start + k) j)
      (ori_y src n dh cosine sine (start + k) j)
  · obtain ⟨h0, h1⟩ := source_index_bounds src h
    have hidx : (start + (k : Int) - start) * (n : Int) + (j : Int)
        = ((k * n + j : Nat) : Int) := by
      push_cast; ring
    have hread : inInt (ori_y src n dh cosine sine (start + k) j * src.width
        + ori_x src n dh cosine sine (start + k) j) := inInt_of_bounds h0 (by omega)
    have hwrite : inInt ((start + (k : Int) - start) * (n : Int) + (j : Int)) := by
      rw [hidx]
      exact inInt_of_bounds (by positivity) (by omega)
    simp only [if_pos h, if_pos (And.intro hread hwrite)]
    rw [readByte_source src hlen h]
    simp only [Option.bind, writeByte, hidx, Int.toNat_ofNat, sample, if_pos h]
    rw [if_pos ⟨by positivity, hb⟩]
  · simp only [if_neg h]

/-- The inner loop on local row `k`: the row's cells whose source coordinates pass the
bounds test receive their sample, every other cell of the buffer is unchanged. -/
theorem rowLoop_spec (src : PGMImage)
    (hlen : src.data.length = (src.width * src.height).toNat)
    (hmax : src.width * src.height ≤ INT_MAX) (n : Nat) (dh : Int)
    (cosine sine : ℚ) (start : Int) (k : Nat) (b : List Nat)
    (hb : k * n + n ≤ b.length) (hcap : (b.length : Int) ≤ INT_MAX) :
    ∃ b', rowLoop src n dh cosine sine start b (start + k) = some b' ∧
      b'.length = b.length ∧
      ∀ p, b'[p]? =
        if k * n ≤ p ∧ p < k * n + n ∧
            inSource src (ori_x src n dh cosine sine (start + k) ((p - k * n : Nat) : Int))
              (ori_y src n dh cosine sine (start + k) ((p - k * n : Nat) : Int))
        then some (sample src n dh cosine sine (start + k) ((p - k * n : Nat) : Int))
        else b[p]? := by
  unfold rowLoop
  rw [Int.toNat_ofNat]
  have key := foldlM_range_invariant
    (fun b j => pixelStep src n dh cosine sine start (start + k) b (j : Int))
    (fun m b' => b'.length = b.length ∧
      ∀ p, b'[p]? =
        if k * n ≤ p ∧ p < k * n + m ∧
            inSource src (ori_x src n dh cosine sine (start + k) ((p - k * n : Nat) : Int))
              (ori_y src n dh cosine sine (start + k) ((p - k * n : Nat) : Int))
        then some (sample src n dh cosine sine (start + k) ((p - k * n : Nat) : Int))
        else b[p]?)
    n b ⟨rfl, fun p => by rw [if_neg]; omega⟩ ?_
  · exact key
  · rintro m b' hm ⟨hl, hp⟩
    refine ⟨_, pixelStep_eq src hlen hmax n dh cosine sine start k m b' (by omega)
      (by rw [hl]; exact hcap), ?_, ?_⟩
    · split_ifs <;> simp [hl]
    · intro p
      by_cases hpm : p = k * n + m
      · subst hpm
        have hsub : k * n + m - k * n = m := by omega
        by_cases hin : inSource src (ori_x src n dh cosine sine (start + k) (m : Int))
            (ori_y src n dh cosine sine (start + k) (m : Int))
        · rw [if_pos hin, List.getElem?_set, if_pos rfl, if_pos (by omega), hsub,
            if_pos ⟨by omega, by omega, hin⟩]
        · rw [if_neg hin, hp, hsub, if_neg (by omega), if_neg (fun h => hin h.2.2)]
      · have hget : (if inSource src (ori_x src n dh cosine sine (start + k) (m : Int))
            (ori_y src n dh cosine sine (start + k) (m : Int))
            then b'.set (k * n + m) (sample src n dh cosine sine (start + k) (m : Int))
            else b')[p]? = b'[p]? := by
          split_ifs
          · rw [List.getElem?_set, if_neg (fun h => hpm h.symm)]
          · rfl
        rw [hget, hp]
        by_cases hc : k * n ≤ p ∧ p < k * n + m ∧
            inSource src (ori_x src n dh cosine sine (start + k) ((p - k * n : Nat) : Int))
              (ori_y src n dh cosine sine (start + k) ((p - k * n : Nat) : Int))
        · rw [if_pos hc, if_pos ⟨hc.1, by omega, hc.2.2⟩]
        · rw [if_neg hc, if_neg]
          rintro ⟨h1, h2, h3⟩
          exact hc ⟨h1, by omega, h3⟩

theorem sample_of_not_inSource (src : PGMImage) (dw dh : Int) (cosine sine : ℚ) (i j : Int)
    (h : ¬ inSource src (ori_x src dw dh cosine sine i j) (ori_y src dw dh cosine sine i j)) :
    sample src dw dh cosine sine i j = 0 := by
  unfold sample; rw [if_neg h]

/-- The outer loop on a zeroed buffer of `L` cells: cell `k * n + j` of local row `k`
holds the sample of destination pixel `(start + k, j)` when the row was visited and `0`
otherwise. -/
theorem kernel_spec (src : PGMImage)
    (hlen : src.data.length = (src.width * src.height).toNat)
    (hmax : src.width * src.height ≤ INT_MAX) (n : Nat) (dh : Int)
    (cosine sine : ℚ) (start stop : Int) (L : Nat)
    (hL : (stop - start).toNat * n ≤ L) (hcap : (L : Int) ≤ INT_MAX) :
    ∃ b, kernel src n dh cosine sine start stop (List.replicate L 0) = some b ∧
      b.length = L ∧
      ∀ k j : Nat, j < n → k * n + j < L →
        b[k * n + j]? =
          some (if start + (k : Int) < stop then sample src n dh cosine sine (start + k) j
                else 0) := by
  unfold kernel
  have key := foldlM_range_invariant
    (fun b (k : Nat) => rowLoop src n dh cosine sine start b (start + (k : Int)))
    (fun m b => b.length = L ∧
      ∀ k j : Nat, j < n → k * n + j < L →
        b[k * n + j]? =
          some (if k < m then sample src n dh cosine sine (start + k) j else 0))
    (stop - start).toNat (List.replicate L 0)
    ⟨by simp, fun k j _ hkj => by simp [List.getElem?_replicate, hkj]⟩ ?_
  · obtain ⟨b, hb, hl, hp⟩ := key
    refine ⟨b, hb, hl, fun k j hj hkj => ?_⟩
    rw [hp k j hj hkj]
    have hiff : k < (stop - start).toNat ↔ start + (k : Int) < stop := by omega
    simp only [hiff]
  · rintro m b hm ⟨hl, hp⟩
    have hrow : m * n + n ≤ b.length := by
      have h1 : (m + 1) * n ≤ (stop - start).toNat * n := Nat.mul_le_mul_right n (by omega)
      have h2 : (m + 1) * n = m * n + n := by ring
      omega
    obtain ⟨b', hb', hl', hp'⟩ := rowLoop_spec src hlen hmax n dh cosine sine start m b hrow
      (by rw [hl]; exact hcap)
    refine ⟨b', hb', by omega, fun k j hj hkj => ?_⟩
    rw [hp']
    rcases Nat.lt_trichotomy k m with hk | hk | hk
    · have h1 : (k + 1) * n ≤ m * n := Nat.mul_le_mul_right n (by omega)
      have h2 : (k + 1) * n = k * n + n := by ring
      rw [if_neg (by omega), hp k j hj hkj, if_pos hk, if_pos (by omega)]
    · subst hk
      have hsub : k * n + j - k * n = j := by omega
      rw [hsub, if_pos (by omega : k < k + 1)]
      by_cases hin : inSource src (ori_x src n dh cosine sine (start + k) (j : Int))
          (ori_y src n dh cosine sine (start + k) (j : Int))
      · rw [if_pos ⟨by omega, by omega, hin⟩]
      · rw [if_neg (fun h => hin h.2.2), hp k j hj hkj, if_neg (by omega),
          sample_of_not_inSource _ _ _ _ _ _ _ hin]
    · have h1 : (m + 1) * n ≤ k * n := Nat.mul_le_mul_right n (by omega)
      have h2 : (m + 1) * n = m * n + n := by ring
      rw [if_neg (by omega), hp k j hj hkj, if_neg (by omega), if_neg (by omega)]

/-- Under `SizesFit`, every `int` expression of lines 116-131 is in range for a rank in
`[0, size)`. -/
theorem int_expressions_in_range {dw dh size rank : Int} (hw : 0 ≤ dw) (hh : 0 ≤ dh)
    (hs : 1 ≤ size) (hr0 : 0 ≤ rank) (hr1 : rank < size) (hfit : SizesFit dw dh size) :
    inInt dw ∧ inInt dh ∧ inInt (dw * dh) ∧ inInt (dh + size - 1) ∧
      inInt (rank * rows_per_process dh size) ∧
      inInt ((rank + 1) * rows_per_process dh size) ∧
      inInt (dw * rows_per_process dh size) := by
  obtain ⟨h1, h2, h3⟩ := hfit
  obtain ⟨-, hb⟩ := rows_per_process_bounds hh hs
  have hq0 := rows_per_process_nonneg hh hs
  have hqle := rows_per_process_le_height hh hs
  generalize rows_per_process dh size = q at *
  have ha : rank * q ≤ (rank + 1) * q := mul_le_mul_of_nonneg_right (by omega) hq0
  have hc : (rank + 1) * q ≤ size * q := mul_le_mul_of_nonneg_right (by omega) hq0
  have hd : dw * q ≤ dw * dh := mul_le_mul_of_nonneg_left hqle hw
  exact ⟨inInt_of_bounds hw h1, inInt_of_bounds hh (by omega),
    inInt_of_bounds (mul_nonneg hw hh) h3, inInt_of_bounds (by omega) h2,
    inInt_of_bounds (mul_nonneg hr0 hq0) (by omega),
    inInt_of_bounds (mul_nonneg (by omega) hq0) (by omega),
    inInt_of_bounds (mul_nonneg hw hq0) (by omega)⟩

/-- The send buffer of one rank: when the sizes fit `int`, `rotatePGM` succeeds, reports
the destination header, and its buffer has the uniform capacity, with cell
`k * dst->width + j` holding the sample of destination pixel `(start_row + k, j)` for an
assigned row and `0` for a padding row. -/
theorem rotatePGM_spec (src : PGMImage) (hv : src.valid)
    (cosine sine : ℚ) (rank size : Int) (hs : 1 ≤ size) (hr0 : 0 ≤ rank) (hr1 : rank < size)
    (hfit : SizesFit (dstWidth src cosine sine) (dstHeight src cosine sine) size) :
    ∃ buf, rotatePGM src cosine sine rank size
        = some { width := dstWidth src cosine sine, height := dstHeight src cosine sine,
                 maxval := src.maxval, local_buffer := buf } ∧
      buf.length = (dstWidth src cosine sine
        * rows_per_process (dstHeight src cosine sine) size).toNat ∧
      ∀ k j : Nat, (j : Int) < dstWidth src cosine sine →
        (k : Int) < rows_per_process (dstHeight src cosine sine) size →
        buf[k * (dstWidth src cosine sine).toNat + j]? =
          some (if start_row (dstHeight src cosine sine) size rank + (k : Int)
                    < end_row (dstHeight src cosine sine) size rank
                then sample src (dstWidth src cosine sine) (dstHeight src cosine sine)
                  cosine sine (start_row (dstHeight src cosine sine) size rank + k) j
                else 0) := by
  have hw := dstWidth_nonneg src cosine sine
  have hh := dstHeight_nonneg src cosine sine
  obtain ⟨f1, f2, f3, f4, f5, f6, f7⟩ := int_expressions_in_range hw hh hs hr0 hr1 hfit
  have hcapmax := f7.2
  generalize hdw : dstWidth src cosine sine = dw at *
  generalize hdh : dstHeight src cosine sine = dh at *
  have hr := rows_per_process_nonneg hh hs
  have hse := end_row_sub_start_row_le dh size rank
  obtain ⟨n, rfl⟩ := Int.eq_ofNat_of_zero_le hw
  obtain ⟨r, hr'⟩ := Int.eq_ofNat_of_zero_le hr
  have h3 : ((n : Int) * r).toNat = r * n := by
    rw [← Int.natCast_mul, Int.toNat_ofNat, Nat.mul_comm]
  have hL : (end_row dh size rank - start_row dh size rank).toNat * n ≤ ((n : Int) * r).toNat := by
    have h1 : (end_row dh size rank - start_row dh size rank).toNat ≤ r := by omega
    have h2 := Nat.mul_le_mul_right n h1
    omega
  have hcap : ((((n : Int) * r).toNat : Nat) : Int) ≤ INT_MAX := by
    rw [Int.toNat_of_nonneg (by positivity), ← hr']
    exact hcapmax
  obtain ⟨b, hb, hl, hp⟩ := kernel_spec src hv.2.2.1 hv.2.2.2 n dh cosine sine
    (start_row dh size rank) (end_row dh size rank) (((n : Int) * r).toNat) hL hcap
  refine ⟨b, ?_, ?_, ?_⟩
  · unfold rotatePGM
    simp only [hdw, hdh]
    rw [if_neg (not_not.mpr ⟨f1, f2⟩), if_neg (fun h => h.2 f3), if_neg (by omega),
      if_neg (not_not.mpr f4), if_neg (not_not.mpr ⟨f5, f6⟩), if_neg (not_not.mpr f7),
      hr', hb]
    rfl
  · rw [hl, hr']
  · intro k j hj hk
    rw [Int.toNat_ofNat]
    apply hp k j (by omega)
    have h1 : (k + 1) * n ≤ r * n := Nat.mul_le_mul_right n (by omega)
    have h2 : (k + 1) * n = k * n + n := by ring
    omega

/-! ## Gathering uniform chunks -/

/-- Position `p` of a buffer of `n` columns and `r` rows is column `p % n` of row `p / n`. -/
theorem cell_of_position {p n r : Nat} (hp : p < n * r) :
    p % n < n ∧ p / n < r ∧ p / n * n + p % n = p := by
  have hn : 0 < n := by
    rcases Nat.eq_zero_or_pos n with h | h
    · subst h; simp at hp
    · exact h
  refine ⟨Nat.mod_lt _ hn, ?_, ?_⟩
  · rw [Nat.div_lt_iff_lt_mul hn, Nat.mul_comm]; exact hp
  · rw [Nat.mul_comm]; exact Nat.div_add_mod p n

theorem mapM_range_some {α : Type} (f : Nat → Option α) (g : Nat → α) (N : Nat)
    (h : ∀ r, r < N → f r = some (g r)) :
    (List.range N).mapM f = some ((List.range N).map g) := by
  induction N with
  | zero => rfl
  | succ N ih =>
    have hN : [N].mapM f = some [g N] := by
      rw [List.mapM_cons, List.mapM_nil, h N (by omega)]; rfl
    rw [List.range_succ, List.mapM_append, ih (fun r hr => h r (by omega)), List.map_append, hN]
    rfl

theorem length_flatten_uniform {α : Type} (f : Nat → List α) (c N : Nat)
    (hf : ∀ r, r < N → (f r).length = c) :
    ((List.range N).map f).flatten.length = N * c := by
  induction N with
  | zero => simp
  | succ N ih =>
    rw [List.range_succ, List.map_append, List.flatten_append, List.length_append,
      ih (fun r hr => hf r (by omega))]
    simp [hf N (by omega), Nat.succ_mul]

/-- Chunk `r` of a concatenation of `N` chunks of `c` cells starts at offset `r * c`. -/
theorem getElem?_flatten_uniform {α : Type} (f : Nat → List α) (c N : Nat)
    (hf : ∀ r, r < N → (f r).length = c) (r q : Nat) (hr : r < N) (hq : q < c) :
    ((List.range N).map f).flatten[r * c + q]? = (f r)[q]? := by
  induction N with
  | zero => omega
  | succ N ih =>
    have hlen := length_flatten_uniform f c N (fun r hr => hf r (by omega))
    rw [List.range_succ, List.map_append, List.flatten_append]
    rcases Nat.lt_or_ge r N with hrN | hrN
    · have h1 : (r + 1) * c ≤ N * c := Nat.mul_le_mul_right c (by omega)
      have h2 : (r + 1) * c = r * c + c := by ring
      rw [List.getElem?_append_left (by omega)]
      exact ih (fun r hr => hf r (by omega)) hrN
    · have hrN' : r = N := by omega
      subst hrN'
      rw [List.getElem?_append_right (by omega), hlen]
      simp

/-- Concatenating `N` bands of `R` rows of `n` cells, band `r` holding rows
`r * R .. r * R + R - 1` of an `h`-row table and padding below row `h`, and keeping the
first `n * h` cells gives the table itself. -/
theorem take_flatten_bands {α : Type} (n h R N : Nat) (F : Nat → Nat → α) (z : α)
    (bands : Nat → List α) (whole : List α) (hcover : h ≤ N * R)
    (hlen : ∀ r, r < N → (bands r).length = n * R)
    (hband : ∀ r k j, r < N → k < R → j < n →
      (bands r)[k * n + j]? = some (if r * R + k < h then F (r * R + k) j else z))
    (hwlen : whole.length = n * h)
    (hwhole : ∀ k j, k < h → j < n → whole[k * n + j]? = some (F k j)) :
    (((List.range N).map bands).flatten).take (n * h) = whole := by
  apply List.ext_getElem?
  intro p
  rw [List.getElem?_take]
  by_cases hp : p < n * h
  · rw [if_pos hp]
    obtain ⟨hj, hk, hkj⟩ := cell_of_position hp
    have hR : 0 < R := by
      rcases Nat.eq_zero_or_pos R with h0 | h0
      · subst h0
        have hh : h = 0 := by simpa using hcover
        subst hh
        simp at hp
      · exact h0
    have hrN : p / n / R < N := by
      rw [Nat.div_lt_iff_lt_mul hR]; omega
    have hk' : p / n % R < R := Nat.mod_lt _ hR
    have hdm : p / n / R * R + p / n % R = p / n := by
      rw [Nat.mul_comm]; exact Nat.div_add_mod _ _
    have hq : p / n % R * n + p % n < n * R := by
      have h1 : (p / n % R + 1) * n ≤ R * n := Nat.mul_le_mul_right n (by omega)
      have h2 : (p / n % R + 1) * n = p / n % R * n + n := by ring
      have h3 : R * n = n * R := Nat.mul_comm _ _
      omega
    have hpos : p = p / n / R * (n * R) + (p / n % R * n + p % n) := by
      have : p / n / R * (n * R) + (p / n % R * n + p % n)
          = (p / n / R * R + p / n % R) * n + p % n := by ring
      rw [this, hdm, hkj]
    have hw := hwhole (p / n) (p % n) hk hj
    rw [hkj] at hw
    rw [hw]
    conv_lhs => rw [hpos]
    rw [getElem?_flatten_uniform bands (n * R) N hlen _ _ hrN hq,
      hband _ _ _ hrN hk' hj, hdm, if_pos hk]
  · rw [if_neg hp]
    exact (List.getElem?_eq_none (by omega)).symm

/-! ## Partition claims -/

theorem sample_of_inSource (src : PGMImage) (dw dh : Int) (cosine sine : ℚ) (i j : Int)
    (hlen : src.data.length = (src.width * src.height).toNat)
    (h : inSource src (ori_x src dw dh cosine sine i j) (ori_y src dw dh cosine sine i j)) :
    src.data[(ori_y src dw dh cosine sine i j * src.width
        + ori_x src dw dh cosine sine i j).toNat]?
      = some (sample src dw dh cosine sine i j) := by
  obtain ⟨h0, h1⟩ := source_index_bounds src h
  unfold sample
  rw [if_pos h, List.getD_eq_getElem?_getD, List.getElem?_eq_getElem (by rw [hlen]; omega)]
  rfl

/-- The send buffer of one rank, by position: position `p` holds the sample of destination
pixel `(start_row + p / dst->width, p % dst->width)` for an assigned row, `0` for padding. -/
theorem rotatePGM_spec_position (src : PGMImage) (hv : src.valid)
    (cosine sine : ℚ) (rank size : Int) (hs : 1 ≤ size) (hr0 : 0 ≤ rank) (hr1 : rank < size)
    (hfit : SizesFit (dstWidth src cosine sine) (dstHeight src cosine sine) size) :
    ∃ buf, rotatePGM src cosine sine rank size
        = some { width := dstWidth src cosine sine, height := dstHeight src cosine sine,
                 maxval := src.maxval, local_buffer := buf } ∧
      (buf.length : Int) = dstWidth src cosine sine
        * rows_per_process (dstHeight src cosine sine) size ∧
      ∀ p : Nat, p < buf.length →
        buf[p]? =
          some (if start_row (dstHeight src cosine sine) size rank
                      + ((p / (dstWidth src cosine sine).toNat : Nat) : Int)
                    < end_row (dstHeight src cosine sine) size rank
                then sample src (dstWidth src cosine sine) (dstHeight src cosine sine)
                  cosine sine
                  (start_row (dstHeight src cosine sine) size rank
                    + ((p / (dstWidth src cosine sine).toNat : Nat) : Int))
                  ((p % (dstWidth src cosine sine).toNat : Nat) : Int)
                else 0) := by
  obtain ⟨buf, hbuf, hl, hp⟩ := rotatePGM_spec src hv cosine sine rank size hs hr0 hr1 hfit
  have hw := dstWidth_nonneg src cosine sine
  have hr := rows_per_process_nonneg (dstHeight_nonneg src cosine sine) hs
  have hprod : 0 ≤ dstWidth src cosine sine
      * rows_per_process (dstHeight src cosine sine) size := mul_nonneg hw hr
  refine ⟨buf, hbuf, by omega, fun p hpl => ?_⟩
  have hlen' : buf.length = (dstWidth src cosine sine).toNat
      * (rows_per_process (dstHeight src cosine sine) size).toNat := by
    rw [hl]
    zify
    rw [Int.toNat_of_nonneg hprod, Int.toNat_of_nonneg hw, Int.toNat_of_nonneg hr]
  obtain ⟨h1, h2, h3⟩ := cell_of_position (hlen' ▸ hpl)
  have := hp (p / (dstWidth src cosine sine).toNat) (p % (dstWidth src cosine sine).toNat)
    (by omega) (by omega)
  rw [h3] at this
  exact this

/-- C5 as stated fails: the 65536x1 image is valid and at 45 degrees its destination is
46341x46341; with one worker, pixel (0, 0) lies in the worker's range, but
`dst->width * rows_per_process = 2147488281` does not fit an `int`, the run is undefined
and no sample is stored. -/
theorem C5_overflow_counterexample :
    wideImage.valid ∧
    start_row (dstHeight wideImage cos45 sin45) 1 0 ≤ 0 ∧
    0 < end_row (dstHeight wideImage cos45 sin45) 1 0 ∧
    0 < dstWidth wideImage cos45 sin45 ∧
    dstWidth wideImage cos45 sin45 * rows_per_process (dstHeight wideImage cos45 sin45) 1
      = 2147488281 ∧
    rotatePGM wideImage cos45 sin45 0 1 = none :=
  ⟨wideImage_valid, by decide!, by decide!, by decide!, by decide!, by decide!⟩

/-- C5 (amended): when the destination sizes fit `int` (`SizesFit`), for every destination
pixel in the range of a worker `rank` in `[0, size)` (row `i` in `[start_row, end_row)`,
column `j` in `[0, dst.width)`), if the computed source coordinates pass
`0 <= ori_x < src.width` and `0 <= ori_y < src.height` the sample stored at
`(i - start_row) * dst.width + j` is `src.data[ori_y * src.width + ori_x]`, and otherwise
it is the background value `0`. -/
theorem C5_stored_sample (src : PGMImage) (hv : src.valid) (cosine sine : ℚ)
    (rank size : Int) (hs : 1 ≤ size) (hr0 : 0 ≤ rank) (hr1 : rank < size)
    (hfit : SizesFit (dstWidth src cosine sine) (dstHeight src cosine sine) size)
    (i j : Int)
    (hi0 : start_row (dstHeight src cosine sine) size rank ≤ i)
    (hi1 : i < end_row (dstHeight src cosine sine) size rank)
    (hj0 : 0 ≤ j) (hj1 : j < dstWidth src cosine sine) :
    ∃ res, rotatePGM src cosine sine rank size = some res ∧
      (inSource src
          (ori_x src (dstWidth src cosine sine) (dstHeight src cosine sine) cosine sine i j)
          (ori_y src (dstWidth src cosine sine) (dstHeight src cosine sine) cosine sine i j) →
        ∃ v, src.data[(ori_y src (dstWidth src cosine sine) (dstHeight src cosine sine)
                  cosine sine i j * src.width
                + ori_x src (dstWidth src cosine sine) (dstHeight src cosine sine)
                  cosine sine i j).toNat]? = some v ∧
          res.local_buffer[((i - start_row (dstHeight src cosine sine) size rank)
              * dstWidth src cosine sine + j).toNat]? = some v) ∧
      (¬ inSource src
          (ori_x src (dstWidth src cosine sine) (dstHeight src cosine sine) cosine sine i j)
          (ori_y src (dstWidth src cosine sine) (dstHeight src cosine sine) cosine sine i j) →
        res.local_buffer[((i - start_row (dstHeight src cosine sine) size rank)
            * dstWidth src cosine sine + j).toNat]? = some 0) := by
  obtain ⟨buf, hbuf, -, hp⟩ := rotatePGM_spec src hv cosine sine rank size hs hr0 hr1 hfit
  have hse := end_row_sub_start_row_le (dstHeight src cosine sine) size rank
  have hcell := hp (i - start_row (dstHeight src cosine sine) size rank).toNat j.toNat
    (by omega) (by omega)
  have hi : start_row (dstHeight src cosine sine) size rank
      + ((i - start_row (dstHeight src cosine sine) size rank).toNat : Int) = i := by omega
  have hj : (j.toNat : Int) = j := by omega
  have hidx : (i - start_row (dstHeight src cosine sine) size rank).toNat
        * (dstWidth src cosine sine).toNat + j.toNat
      = ((i - start_row (dstHeight src cosine sine) size rank)
          * dstWidth src cosine sine + j).toNat := by
    zify
    rw [Int.toNat_of_nonneg (by omega), Int.toNat_of_nonneg (by omega), hj,
      Int.toNat_of_nonneg (add_nonneg (mul_nonneg (by omega) (by omega)) hj0)]
  rw [hi, hj, hidx, if_pos hi1] at hcell
  refine ⟨_, hbuf, fun hin => ⟨_, sample_of_inSource _ _ _ _ _ _ _ hv.2.2.1 hin, hcell⟩,
    fun hout => ?_⟩
  rw [hcell, sample_of_not_inSource _ _ _ _ _ _ _ hout]

theorem C5_stored_sample_witness :
    ∃ res, rotatePGM img2 cos53 sin53 1 2 = some res ∧
      (inSource img2
          (ori_x img2 (dstWidth img2 cos53 sin53) (dstHeight img2 cos53 sin53)
            cos53 sin53 1 1)
          (ori_y img2 (dstWidth img2 cos53 sin53) (dstHeight img2 cos53 sin53)
            cos53 sin53 1 1) →
        ∃ v, img2.data[(ori_y img2 (dstWidth img2 cos53 sin53)
                  (dstHeight img2 cos53 sin53) cos53 sin53 1 1 * img2.width
                + ori_x img2 (dstWidth img2 cos53 sin53)
                  (dstHeight img2 cos53 sin53) cos53 sin53 1 1).toNat]? = some v ∧
          res.local_buffer[((1 - start_row (dstHeight img2 cos53 sin53) 2 1)
              * dstWidth img2 cos53 sin53 + 1).toNat]? = some v) ∧
      (¬ inSource img2
          (ori_x img2 (dstWidth img2 cos53 sin53) (dstHeight img2 cos53 sin53)
            cos53 sin53 1 1)
          (ori_y img2 (dstWidth img2 cos53 sin53) (dstHeight img2 cos53 sin53)
            cos53 sin53 1 1) →
        res.local_buffer[((1 - start_row (dstHeight img2 cos53 sin53) 2 1)
            * dstWidth img2 cos53 sin53 + 1).toNat]? = some 0) :=
  C5_stored_sample img2 img2_valid cos53 sin53 1 2 (by decide) (by decide) (by decide)
    ⟨by decide!, by decide!, by decide!⟩ 1 1
    (by decide!) (by decide!) (by decide) (by decide!)

/-- C8 as stated fails: for the valid 65536x1 image at 45 degrees, one worker, the
capacity `dst->width * rows_per_process = 46341 * 46341 = 2147488281` exceeds `INT_MAX`;
line 130 overflows and no local buffer of that length is produced. -/
theorem C8_overflow_counterexample :
    wideImage.valid ∧
    dstWidth wideImage cos45 sin45 * rows_per_process (dstHeight wideImage cos45 sin45) 1
      = 2147488281 ∧
    ¬ inInt (dstWidth wideImage cos45 sin45
        * rows_per_process (dstHeight wideImage cos45 sin45) 1) ∧
    (rotatePGM wideImage cos45 sin45 0 1).map (fun res => (res.local_buffer.length : Int))
      ≠ some (dstWidth wideImage cos45 sin45
          * rows_per_process (dstHeight wideImage cos45 sin45) 1) :=
  ⟨wideImage_valid, by decide!, by decide!, by decide!⟩

/-- C8 (amended): when the destination sizes fit `int` (`SizesFit`), for a worker count
`N >= 1` and a rank in `[0, N)`, the local buffer has length exactly
`dst.width * rows_per_process`, and every position that belongs to a local row
`k = p / dst.width` with `start_row + k >= end_row` holds `0`; with an empty range the
whole buffer is `0`. -/
theorem C8_local_buffer_capacity_and_padding (src : PGMImage) (hv : src.valid)
    (cosine sine : ℚ) (rank size : Int) (hs : 1 ≤ size) (hr0 : 0 ≤ rank)
    (hr1 : rank < size)
    (hfit : SizesFit (dstWidth src cosine sine) (dstHeight src cosine sine) size) :
    ∃ res, rotatePGM src cosine sine rank size = some res ∧
      (res.local_buffer.length : Int)
        = dstWidth src cosine sine * rows_per_process (dstHeight src cosine sine) size ∧
      (∀ p : Nat, p < res.local_buffer.length →
        end_row (dstHeight src cosine sine) size rank
          ≤ start_row (dstHeight src cosine sine) size rank
              + ((p / (dstWidth src cosine sine).toNat : Nat) : Int) →
        res.local_buffer[p]? = some 0) ∧
      (end_row (dstHeight src cosine sine) size rank
          ≤ start_row (dstHeight src cosine sine) size rank →
        res.local_buffer = List.replicate res.local_buffer.length 0) := by
  obtain ⟨buf, hbuf, hl, hp⟩ :=
    rotatePGM_spec_position src hv cosine sine rank size hs hr0 hr1 hfit
  have hpad : ∀ p : Nat, p < buf.length →
      end_row (dstHeight src cosine sine) size rank
        ≤ start_row (dstHeight src cosine sine) size rank
            + ((p / (dstWidth src cosine sine).toNat : Nat) : Int) →
      buf[p]? = some 0 := by
    intro p hpl hrow
    rw [hp p hpl, if_neg (by omega)]
  refine ⟨_, hbuf, hl, hpad, fun hempty => ?_⟩
  show buf = List.replicate buf.length 0
  apply List.ext_getElem?
  intro p
  rw [List.getElem?_replicate]
  by_cases hpl : p < buf.length
  · rw [if_pos hpl]
    exact hpad p hpl (le_trans hempty ((le_add_iff_nonneg_right _).mpr (Int.natCast_nonneg _)))
  · rw [if_neg hpl]
    exact List.getElem?_eq_none (by omega)

theorem C8_local_buffer_capacity_and_padding_witness :
    ∃ res, rotatePGM img3 cos53 sin53 2 3 = some res ∧
      (res.local_buffer.length : Int)
        = dstWidth img3 cos53 sin53 * rows_per_process (dstHeight img3 cos53 sin53) 3 ∧
      (∀ p : Nat, p < res.local_buffer.length →
        end_row (dstHeight img3 cos53 sin53) 3 2
          ≤ start_row (dstHeight img3 cos53 sin53) 3 2
              + ((p / (dstWidth img3 cos53 sin53).toNat : Nat) : Int) →
        res.local_buffer[p]? = some 0) ∧
      (end_row (dstHeight img3 cos53 sin53) 3 2
          ≤ start_row (dstHeight img3 cos53 sin53) 3 2 →
        res.local_buffer = List.replicate res.local_buffer.length 0) :=
  C8_local_buffer_capacity_and_padding img3 img3_valid cos53 sin53 2 3
    (by decide) (by decide) (by decide) ⟨by decide!, by decide!, by decide!⟩

/-- C9 as stated fails: for the valid 65536x1 image at 45 degrees, one worker, rank 0, the
run is undefined: the capacity `dst->width * rows_per_process` and the write index of the
last destination pixel, `(46340 - start_row) * dst->width + 46340 = 2147488280`, do not
fit an `int`. -/
theorem C9_overflow_counterexample :
    wideImage.valid ∧
    (rotatePGM wideImage cos45 sin45 0 1).isSome = false ∧
    start_row (dstHeight wideImage cos45 sin45) 1 0 ≤ 46340 ∧
    46340 < end_row (dstHeight wideImage cos45 sin45) 1 0 ∧
    46340 < dstWidth wideImage cos45 sin45 ∧
    ¬ inInt ((46340 - start_row (dstHeight wideImage cos45 sin45) 1 0)
        * dstWidth wideImage cos45 sin45 + 46340) :=
  ⟨wideImage_valid, by decide!, by decide!, by decide!, by decide!, by decide!⟩

/-- C9 (amended): for a valid source image, a worker count `N >= 1` and a rank in `[0, N)`,
when the destination sizes fit `int` (`SizesFit`) the kernel never fails: the divisor of
`rows_per_process` is non-zero, the checked run returns a result, every read index
`ori_y * src.width + ori_x` it uses is in `[0, src.width * src.height)`, every write index
`(i - start_row) * dst.width + j` is in `[0, dst.width * rows_per_process)`, and both
bounds fit an `int`. -/
theorem C9_kernel_never_fails (src : PGMImage) (hv : src.valid) (cosine sine : ℚ)
    (rank size : Int) (hs : 1 ≤ size) (hr0 : 0 ≤ rank) (hr1 : rank < size)
    (hfit : SizesFit (dstWidth src cosine sine) (dstHeight src cosine sine) size) :
    size ≠ 0 ∧
    (rotatePGM src cosine sine rank size).isSome = true ∧
    src.width * src.height ≤ INT_MAX ∧
    dstWidth src cosine sine * rows_per_process (dstHeight src cosine sine) size ≤ INT_MAX ∧
    ∀ i j : Int, start_row (dstHeight src cosine sine) size rank ≤ i →
      i < end_row (dstHeight src cosine sine) size rank →
      0 ≤ j → j < dstWidth src cosine sine →
      (inSource src
          (ori_x src (dstWidth src cosine sine) (dstHeight src cosine sine) cosine sine i j)
          (ori_y src (dstWidth src cosine sine) (dstHeight src cosine sine) cosine sine i j) →
        0 ≤ ori_y src (dstWidth src cosine sine) (dstHeight src cosine sine) cosine sine i j
              * src.width
            + ori_x src (dstWidth src cosine sine) (dstHeight src cosine sine) cosine sine i j ∧
        ori_y src (dstWidth src cosine sine) (dstHeight src cosine sine) cosine sine i j
              * src.width
            + ori_x src (dstWidth src cosine sine) (dstHeight src cosine sine) cosine sine i j
          < src.width * src.height ∧
        src.width * src.height = (src.data.length : Int)) ∧
      (0 ≤ (i - start_row (dstHeight src cosine sine) size rank) * dstWidth src cosine sine + j ∧
        (i - start_row (dstHeight src cosine sine) size rank) * dstWidth src cosine sine + j
          < dstWidth src cosine sine * rows_per_process (dstHeight src cosine sine) size) := by
  obtain ⟨buf, hbuf, -, -⟩ := rotatePGM_spec src hv cosine sine rank size hs hr0 hr1 hfit
  obtain ⟨-, -, -, -, -, -, f7⟩ := int_expressions_in_range (dstWidth_nonneg src cosine sine)
    (dstHeight_nonneg src cosine sine) hs hr0 hr1 hfit
  refine ⟨by omega, by rw [hbuf]; rfl, hv.2.2.2, f7.2,
    fun i j hi0 hi1 hj0 hj1 => ⟨fun hin => ?_, ?_⟩⟩
  · obtain ⟨h0, h1⟩ := source_index_bounds src hin
    refine ⟨h0, h1, ?_⟩
    rw [hv.2.2.1, Int.toNat_of_nonneg (by omega)]
  · have hse := end_row_sub_start_row_le (dstHeight src cosine sine) size rank
    generalize start_row (dstHeight src cosine sine) size rank = st at *
    generalize end_row (dstHeight src cosine sine) size rank = en at *
    generalize rows_per_process (dstHeight src cosine sine) size = q at *
    generalize dstWidth src cosine sine = w at *
    have h1 : 0 ≤ (i - st) * w := mul_nonneg (by omega) (by omega)
    have h2 : (i - st + 1) * w ≤ q * w := mul_le_mul_of_nonneg_right (by omega) (by omega)
    constructor
    · omega
    · nlinarith

theorem C9_kernel_never_fails_witness :
    (2 : Int) ≠ 0 ∧
    (rotatePGM img2 cos53 sin53 1 2).isSome = true ∧
    img2.width * img2.height ≤ INT_MAX ∧
    dstWidth img2 cos53 sin53 * rows_per_process (dstHeight img2 cos53 sin53) 2 ≤ INT_MAX ∧
    ∀ i j : Int, start_row (dstHeight img2 cos53 sin53) 2 1 ≤ i →
      i < end_row (dstHeight img2 cos53 sin53) 2 1 →
      0 ≤ j → j < dstWidth img2 cos53 sin53 →
      (inSource img2
          (ori_x img2 (dstWidth img2 cos53 sin53) (dstHeight img2 cos53 sin53)
            cos53 sin53 i j)
          (ori_y img2 (dstWidth img2 cos53 sin53) (dstHeight img2 cos53 sin53)
            cos53 sin53 i j) →
        0 ≤ ori_y img2 (dstWidth img2 cos53 sin53) (dstHeight img2 cos53 sin53)
                cos53 sin53 i j * img2.width
            + ori_x img2 (dstWidth img2 cos53 sin53) (dstHeight img2 cos53 sin53)
                cos53 sin53 i j ∧
        ori_y img2 (dstWidth img2 cos53 sin53) (dstHeight img2 cos53 sin53)
                cos53 sin53 i j * img2.width
            + ori_x img2 (dstWidth img2 cos53 sin53) (dstHeight img2 cos53 sin53)
                cos53 sin53 i j
          < img2.width * img2.height ∧
        img2.width * img2.height = (img2.data.length : Int)) ∧
      (0 ≤ (i - start_row (dstHeight img2 cos53 sin53) 2 1)
            * dstWidth img2 cos53 sin53 + j ∧
        (i - start_row (dstHeight img2 cos53 sin53) 2 1)
            * dstWidth img2 cos53 sin53 + j
          < dstWidth img2 cos53 sin53
            * rows_per_process (dstHeight img2 cos53 sin53) 2) :=
  C9_kernel_never_fails img2 img2_valid cos53 sin53 1 2 (by decide) (by decide)
    (by decide) ⟨by decide!, by decide!, by decide!⟩

/-! ## Independence from the partition -/

theorem rows_per_process_one (height : Int) : rows_per_process height 1 = height := by
  unfold rows_per_process
  rw [Int.tdiv_one]; omega

theorem SizesFit_one {dw dh size : Int} (hs : 1 ≤ size) (h : SizesFit dw dh size) :
    SizesFit dw dh 1 := by
  unfold SizesFit at *
  exact ⟨h.1, by omega, h.2.2⟩

/-- The send buffer of rank `r` out of `N`, with rows, columns and offsets as naturals:
local row `k` holds destination row `r * R + k` when that row exists, zeros otherwise. -/
theorem rotatePGM_spec_nat (src : PGMImage) (hv : src.valid)
    (cosine sine : ℚ) (r N : Nat) (hN : 1 ≤ N) (hr : r < N)
    (hfit : SizesFit (dstWidth src cosine sine) (dstHeight src cosine sine) N) :
    ∃ buf, rotatePGM src cosine sine (r : Int) (N : Int)
        = some { width := dstWidth src cosine sine, height := dstHeight src cosine sine,
                 maxval := src.maxval, local_buffer := buf } ∧
      buf.length = (dstWidth src cosine sine).toNat
        * (rows_per_process (dstHeight src cosine sine) N).toNat ∧
      ∀ k j : Nat, k < (rows_per_process (dstHeight src cosine sine) N).toNat →
        j < (dstWidth src cosine sine).toNat →
        buf[k * (dstWidth src cosine sine).toNat + j]? =
          some (if r * (rows_per_process (dstHeight src cosine sine) N).toNat + k
                    < (dstHeight src cosine sine).toNat
                then sample src (dstWidth src cosine sine) (dstHeight src cosine sine)
                  cosine sine
                  ((r * (rows_per_process (dstHeight src cosine sine) N).toNat + k : Nat) : Int)
                  (j : Int)
                else 0) := by
  have hs : (1 : Int) ≤ (N : Int) := by exact_mod_cast hN
  obtain ⟨buf, hbuf, hl, hp⟩ := rotatePGM_spec src hv cosine sine r N hs
    (Int.natCast_nonneg r) (by exact_mod_cast hr) hfit
  have hw := dstWidth_nonneg src cosine sine
  have hh := dstHeight_nonneg src cosine sine
  have hr := rows_per_process_nonneg hh hs
  refine ⟨buf, hbuf, ?_, fun k j hk hj => ?_⟩
  · rw [hl]
    zify
    rw [Int.toNat_of_nonneg (mul_nonneg hw hr), Int.toNat_of_nonneg hw, Int.toNat_of_nonneg hr]
  · simp only [end_row_eq_min, start_row] at hp
    clear hfit
    generalize rows_per_process (dstHeight src cosine sine) N = q at *
    obtain ⟨R, rfl⟩ := Int.eq_ofNat_of_zero_le hr
    rw [Int.toNat_ofNat] at hk ⊢
    rw [hp k j (by omega) (by omega)]
    have hrow : (r : Int) * (R : Int) + (k : Int) = ((r * R + k : Nat) : Int) := by
      push_cast; ring
    have hcond : (r : Int) * (R : Int) + (k : Int)
          < min ((r : Int) * (R : Int) + (R : Int)) (dstHeight src cosine sine) ↔
        r * R + k < (dstHeight src cosine sine).toNat := by
      rw [lt_min_iff]
      constructor
      · rintro ⟨-, h2⟩
        rw [hrow] at h2
        omega
      · intro h
        refine ⟨by omega, ?_⟩
        rw [hrow]
        omega
    by_cases hc : r * R + k < (dstHeight src cosine sine).toNat
    · rw [if_pos (hcond.mpr hc), if_pos hc, hrow]
    · rw [if_neg (fun h => hc (hcond.mp h)), if_neg hc]

/-- The gather succeeds when the sizes fit `int` and delivers the rank-order concatenation
of `N` bands of `dst->width * rows_per_process` cells each. -/
theorem gathered_spec (src : PGMImage) (hv : src.valid) (cosine sine : ℚ) (N : Nat)
    (hN : 1 ≤ N)
    (hfit : SizesFit (dstWidth src cosine sine) (dstHeight src cosine sine) N) :
    ∃ bands : Nat → List Nat,
      gathered src cosine sine N = some ((List.range N).map bands).flatten ∧
      ∀ r, r < N →
        (bands r).length = (dstWidth src cosine sine).toNat
          * (rows_per_process (dstHeight src cosine sine) N).toNat ∧
        ∀ k j : Nat, k < (rows_per_process (dstHeight src cosine sine) N).toNat →
          j < (dstWidth src cosine sine).toNat →
          (bands r)[k * (dstWidth src cosine sine).toNat + j]? =
            some (if r * (rows_per_process (dstHeight src cosine sine) N).toNat + k
                      < (dstHeight src cosine sine).toNat
                  then sample src (dstWidth src cosine sine) (dstHeight src cosine sine)
                    cosine sine
                    ((r * (rows_per_process (dstHeight src cosine sine) N).toNat + k : Nat)
                      : Int) (j : Int)
                  else 0) := by
  have hspec := fun (r : Nat) (hr : r < N) =>
    rotatePGM_spec_nat src hv cosine sine r N hN hr hfit
  refine ⟨fun r => if hr : r < N then (hspec r hr).choose else [], ?_, ?_⟩
  · have hmap := mapM_range_some
      (fun r : Nat => rotatePGM src cosine sine (r : Int) (N : Int))
      (fun r : Nat => { width := dstWidth src cosine sine,
                        height := dstHeight src cosine sine, maxval := src.maxval,
                        local_buffer := if hr : r < N then (hspec r hr).choose else [] }) N
      (fun r hr => by
        have := (hspec r hr).choose_spec.1
        simp only [dif_pos hr]
        exact this)
    unfold gathered
    rw [hmap, Option.map_some', List.map_map]
    rfl
  · intro r hr
    simp only [dif_pos hr]
    exact (hspec r hr).choose_spec.2

/-- C2 as stated fails: the 65536x1 image is valid and at 45 degrees its destination is
46341x46341; `dst->width * dst->height` and `dst->width * rows_per_process` overflow `int`,
so neither the one-worker run nor the gather produces a buffer. -/
theorem C2_overflow_counterexample :
    wideImage.valid ∧
    dstWidth wideImage cos45 sin45 = 46341 ∧ dstHeight wideImage cos45 sin45 = 46341 ∧
    rotatePGM wideImage cos45 sin45 0 1 = none ∧
    gathered wideImage cos45 sin45 1 = none ∧
    gathered wideImage cos45 sin45 2 = none :=
  ⟨wideImage_valid, by decide!, by decide!, by decide!, by decide!, by decide!⟩

/-- C2 (amended): for a valid source image, any cosine/sine pair and any worker count
`N >= 1` for which the destination sizes fit `int` (`SizesFit`), concatenating the `N`
local buffers in rank order and keeping the first `dst.width * dst.height` bytes gives
exactly the buffer `rotatePGM` produces with one worker (rank 0). -/
theorem C2_result_independent_of_worker_count (src : PGMImage) (hv : src.valid)
    (cosine sine : ℚ) (N : Nat) (hN : 1 ≤ N)
    (hfit : SizesFit (dstWidth src cosine sine) (dstHeight src cosine sine) N) :
    ∃ g one, gathered src cosine sine N = some g ∧
      rotatePGM src cosine sine 0 1 = some one ∧
      g.take (dstWidth src cosine sine * dstHeight src cosine sine).toNat
        = one.local_buffer := by
  have hs : (1 : Int) ≤ (N : Int) := by exact_mod_cast hN
  have hw := dstWidth_nonneg src cosine sine
  have hh := dstHeight_nonneg src cosine sine
  have hr := rows_per_process_nonneg hh hs
  obtain ⟨hcov, -⟩ := rows_per_process_bounds hh hs
  obtain ⟨bands, hg, hbands⟩ := gathered_spec src hv cosine sine N hN hfit
  have hfit1 : SizesFit (dstWidth src cosine sine) (dstHeight src cosine sine) (1 : Nat) := by
    rw [Nat.cast_one]
    exact SizesFit_one hs hfit
  obtain ⟨one, hone, holen, hocell⟩ :=
    rotatePGM_spec_nat src hv cosine sine 0 1 le_rfl Nat.zero_lt_one hfit1
  rw [Nat.cast_one, rows_per_process_one] at holen hocell
  rw [Nat.cast_one, Nat.cast_zero] at hone
  refine ⟨_, _, hg, hone, ?_⟩
  have htake : (dstWidth src cosine sine * dstHeight src cosine sine).toNat
      = (dstWidth src cosine sine).toNat * (dstHeight src cosine sine).toNat := by
    zify
    rw [Int.toNat_of_nonneg (mul_nonneg hw hh), Int.toNat_of_nonneg hw, Int.toNat_of_nonneg hh]
  rw [htake]
  apply take_flatten_bands (dstWidth src cosine sine).toNat (dstHeight src cosine sine).toNat
    (rows_per_process (dstHeight src cosine sine) N).toNat N
    (fun k j => sample src (dstWidth src cosine sine) (dstHeight src cosine sine)
      cosine sine (k : Int) (j : Int)) 0
  · zify
    rw [Int.toNat_of_nonneg hh, Int.toNat_of_nonneg hr]
    exact hcov
  · intro r hr
    exact (hbands r hr).1
  · intro r k j hr hk hj
    exact (hbands r hr).2 k j hk hj
  · exact holen
  · intro k j hk hj
    have := hocell k j hk hj
    rw [if_pos (by omega)] at this
    simpa using this

theorem C2_result_independent_of_worker_count_witness :
    ∃ g one, gathered img3 cos53 sin53 3 = some g ∧
      rotatePGM img3 cos53 sin53 0 1 = some one ∧
      g.take (dstWidth img3 cos53 sin53 * dstHeight img3 cos53 sin53).toNat
        = one.local_buffer :=
  C2_result_independent_of_worker_count img3 img3_valid cos53 sin53 3 (by decide)
    ⟨by decide!, by decide!, by decide!⟩

/-! ## The gathered length and the allocation of rank 0 -/

/-- C10 as stated fails: for the destination 46341x46341 of the valid 65536x1 image at 45
degrees, `dst->width * dst->height = 2147488281` does not fit an `int`; line 121 does not
allocate `dst.width * dst.height` bytes and the per-rank count of line 144 overflows for
one worker. -/
theorem C10_overflow_counterexample :
    wideImage.valid ∧
    dstWidth wideImage cos45 sin45 = 46341 ∧ dstHeight wideImage cos45 sin45 = 46341 ∧
    (46341 : Int) * 46341 = 2147488281 ∧
    dstAlloc 46341 46341 = none ∧
    gatherLength 46341 46341 1 = none :=
  ⟨wideImage_valid, by decide!, by decide!, by decide, by decide, by decide⟩

/-- C10 (amended): for `dst.height >= 0`, `dst.width > 0` and `N >= 1` workers whose sizes
fit `int` (`SizesFit`), line 121 allocates `dst.width * dst.height` bytes, the gather
delivers `N * dst.width * rows_per_process` bytes, which is at least the allocation,
overshoots by fewer than `N` rows, equals the allocation exactly when `N` divides
`dst.height`, and is strictly greater whenever `N` does not divide `dst.height`; for every
valid source with these destination dimensions the gathered bytes have that length. -/
theorem C10_gather_length (dw dh size : Int) (hh : 0 ≤ dh) (hw : 0 < dw) (hs : 1 ≤ size)
    (hfit : SizesFit dw dh size) :
    dstAlloc dw dh = some (dw * dh) ∧
    gatherLength dw dh size = some (size * (dw * rows_per_process dh size)) ∧
    dw * dh ≤ size * (dw * rows_per_process dh size) ∧
    size * rows_per_process dh size - dh < size ∧
    (size * (dw * rows_per_process dh size) = dw * dh ↔ size ∣ dh) ∧
    (¬ size ∣ dh → dw * dh < size * (dw * rows_per_process dh size)) ∧
    (∀ (src : PGMImage) (cosine sine : ℚ) (N : Nat), src.valid → (N : Int) = size →
      dstWidth src cosine sine = dw → dstHeight src cosine sine = dh →
      ∃ g, gathered src cosine sine N = some g ∧
        (g.length : Int) = size * (dw * rows_per_process dh size)) := by
  obtain ⟨h1, h2⟩ := rows_per_process_bounds hh hs
  have hq0 := rows_per_process_nonneg hh hs
  have hqle := rows_per_process_le_height hh hs
  have hcount : inInt (dw * rows_per_process dh size) :=
    inInt_of_bounds (mul_nonneg hw.le hq0)
      (le_trans (mul_le_mul_of_nonneg_left hqle hw.le) hfit.2.2)
  have halloc : inInt (dw * dh) := inInt_of_bounds (mul_nonneg hw.le hh) hfit.2.2
  have hle : dw * dh ≤ size * (dw * rows_per_process dh size) := by
    have := mul_le_mul_of_nonneg_left h1 hw.le
    linarith
  have hiff : size * (dw * rows_per_process dh size) = dw * dh ↔ size ∣ dh := by
    constructor
    · intro h
      have h' : dw * (size * rows_per_process dh size) = dw * dh := by linarith
      have := mul_left_cancel₀ (ne_of_gt hw) h'
      exact ⟨rows_per_process dh size, this.symm⟩
    · rintro ⟨c, hc⟩
      have hqc : rows_per_process dh size = c := by
        have h1' : size * c ≤ size * rows_per_process dh size := by rw [← hc]; exact h1
        have ha : c ≤ rows_per_process dh size := le_of_mul_le_mul_left h1' (by omega)
        have hb : size * rows_per_process dh size < size * (c + 1) := by
          rw [mul_add, mul_one, ← hc]; exact h2
        have hb' : rows_per_process dh size < c + 1 := lt_of_mul_lt_mul_left hb (by omega)
        omega
      rw [hqc, hc]; ring
  refine ⟨by unfold dstAlloc; rw [if_pos halloc],
    by unfold gatherLength gatherCount; rw [if_pos hcount]; rfl,
    hle, by omega, hiff, fun hnd => lt_of_le_of_ne hle (fun h => hnd (hiff.mp h.symm)), ?_⟩
  intro src cosine sine N hv hNs hdw hdh
  subst hdw hdh hNs
  have hN : 1 ≤ N := by exact_mod_cast hs
  obtain ⟨bands, hg, hbands⟩ := gathered_spec src hv cosine sine N hN hfit
  refine ⟨_, hg, ?_⟩
  rw [length_flatten_uniform bands _ N (fun r hr => (hbands r hr).1)]
  push_cast
  rw [Int.toNat_of_nonneg hw.le, Int.toNat_of_nonneg hq0]

theorem C10_gather_length_witness :
    dstAlloc 4 4 = some (4 * 4) ∧
    gatherLength 4 4 3 = some (3 * (4 * rows_per_process 4 3)) ∧
    (4 : Int) * 4 ≤ 3 * (4 * rows_per_process 4 3) ∧
    (3 : Int) * rows_per_process 4 3 - 4 < 3 ∧
    ((3 : Int) * (4 * rows_per_process 4 3) = 4 * 4 ↔ (3 : Int) ∣ 4) ∧
    (¬ (3 : Int) ∣ 4 → (4 : Int) * 4 < 3 * (4 * rows_per_process 4 3)) ∧
    (∀ (src : PGMImage) (cosine sine : ℚ) (N : Nat), src.valid → (N : Int) = 3 →
      dstWidth src cosine sine = 4 → dstHeight src cosine sine = 4 →
      ∃ g, gathered src cosine sine N = some g ∧
        (g.length : Int) = 3 * (4 * rows_per_process 4 3)) :=
  C10_gather_length 4 4 3 (by decide) (by decide) (by decide)
    ⟨by decide, by decide, by decide⟩

/-! ## The inverse mapping -/

/-- The products are rounded to double before the cast: for the 10x10 image at
`angle = 53.13010326045783` the destination is 14 wide, and at pixel (2, 7) the product
`-5 * cosine` rounds to `-3.0`, so the kernel uses source column `-3 + 5 = 2`, while the
exact term `-5 * cosine` is above `-3` and would truncate to `-2`. -/
theorem products_round_before_cast :
    dstWidth img10 cos53 sin53 = 14 ∧ dstHeight img10 cos53 sin53 = 14 ∧
    ori_x img10 14 14 cos53 sin53 2 7 = 2 ∧
    toInt (((2 - Int.tdiv 14 2 : Int) : ℚ) * cos53 - ((7 - Int.tdiv 14 2 : Int) : ℚ) * sin53)
      + Int.tdiv 10 2 = 3 := by
  decide!

/-- C3 fails on the code: with cosine 1 and sine 0 the 2x2 image `[1, 2, 3, 4]` keeps its
dimensions but comes out as `[1, 3, 2, 4]`, its transpose: destination index `0*2 + 1`
holds source index `1*2 + 0`. -/
theorem C3_angle_zero_transposes :
    rotatePGM img2 1 0 0 1
      = some { width := 2, height := 2, maxval := 255, local_buffer := [1, 3, 2, 4] } := by
  decide!

/-- At `angle = 180` the 2x2 image `[1, 2, 3, 4]` comes out as `[0, 4, 4, 4]`. -/
theorem angle_180_on_img2 :
    rotatePGM img2 cos180 sin180 0 1
      = some { width := 2, height := 2, maxval := 255, local_buffer := [0, 4, 4, 4] } := by
  decide!

/-- At `angle = 180` the 20000000x1 image gets destination height 2: the dimensions of the
source are not kept. -/
theorem angle_180_changes_height : dstHeight longImage cos180 sin180 = 2 := by
  decide!

/-- C4 fails on the code: at `angle = 180` (cosine -0.9999999999999986 and sine
5.3589793170057245e-08, since `PI` is 3.1415926) the 3x3 image `[1, .., 9]` keeps its
dimensions but comes out as `[6, 5, 2, 5, 5, 5, 8, 5, 4]` instead of the double flip
`[9, 8, .., 1]`: destination index `0*3 + 0` holds source index `1*3 + 2`. -/
theorem C4_angle_180_is_not_double_flip :
    rotatePGM img3 cos180 sin180 0 1
        = some { width := 3, height := 3, maxval := 255,
                 local_buffer := [6, 5, 2, 5, 5, 5, 8, 5, 4] } ∧
    (rotatePGM img3 cos180 sin180 0 1).map (fun res => res.local_buffer[0 * 3 + 0]?)
      ≠ some (img3.data[(3 - 1 - 0) * 3 + (3 - 1 - 0)]?) := by
  decide!

end RotateMPI
